import Mathlib

/-!
# S3 signer datasource

A shallow embedding of `pkg/plugin/datasource.go` (Go package `plugin`): the
datasource takes a comma separated list of object keys, asks an S3 presign
client for one GET URL per key and returns the URLs as a one-column table;
`CheckHealth` presigns a fixed canary key.

Conventions of the embedding.

* A Go `string` is a Lean `String`. The two string functions of the standard
  library that `query` calls work on bytes; the bytes they look for here (the
  space `0x20` and the comma `0x2C`) are ASCII, and a string decoded by
  `json.Unmarshal` is valid UTF-8, so that working on characters is the same.
* A nil pointer or nil `error` is `none`.
* A call that can raise a run-time error returns `Except Panic _`; every
  presign call made up to that point is kept in a trace (`Exec.calls`).
* The presign client and `json.Unmarshal` live outside the repository. They
  are parameters: a function from the call's input to the pair of values the
  Go call returns (for the presign client, at a fixed signing time). Log calls
  only write to the logger and are left out.
-/

namespace plugin

/-! ## Go standard library: `strings` -/

namespace strings

/-- Scan of `strings.Replace(s, old, new, -1)` for a non-empty `old`: the first
argument counts the characters of a matched occurrence still to be skipped.
Occurrences are found left to right and do not overlap. -/
def replaceFrom (old new : List Char) : Nat → List Char → List Char
  | _, [] => []
  | k + 1, _ :: cs => replaceFrom old new k cs
  | 0, c :: cs =>
    if old.isPrefixOf (c :: cs) then new ++ replaceFrom old new (old.length - 1) cs
    else c :: replaceFrom old new 0 cs

/-- Go `strings.ReplaceAll(s, old, new)`: every non-overlapping occurrence of
`old` replaced by `new`; an empty `old` matches before every character and at
the end. -/
def ReplaceAll (s old new : String) : String :=
  if old = new then s
  else if old.data = [] then ⟨new.data ++ (s.data.map (fun c => c :: new.data)).flatten⟩
  else ⟨replaceFrom old.data new.data 0 s.data⟩

/-- Scan of `strings.Split(s, sep)` for a non-empty `sep`: the first argument
counts the characters of a matched separator still to be skipped. The result
always has a first piece. -/
def splitFrom (sep : List Char) : Nat → List Char → List (List Char)
  | _, [] => [[]]
  | k + 1, _ :: cs => splitFrom sep k cs
  | 0, c :: cs =>
    if sep.isPrefixOf (c :: cs) then [] :: splitFrom sep (sep.length - 1) cs
    else
      match splitFrom sep 0 cs with
      | [] => [[c]]
      | p :: ps => (c :: p) :: ps

/-- Go `strings.Split(s, sep)`: the pieces of `s` between the occurrences of
`sep`; an empty `sep` splits after every character. -/
def Split (s sep : String) : List String :=
  if sep.data = [] then s.data.map (fun c => ⟨[c]⟩)
  else (splitFrom sep.data 0 s.data).map String.mk

/-- Go `strings.Join(elems, sep)`. -/
def Join : List String → String → String
  | [], _ => ""
  | [e], _ => e
  | e :: e2 :: es, sep => e ++ sep ++ Join (e2 :: es) sep

end strings

/-! ## External collaborators -/

/-- A non-nil Go `error`, seen through its `Error()` text. -/
structure GoError where
  Error : String
deriving DecidableEq, Repr

/-- The two fields of `s3.GetObjectInput` that the datasource sets. -/
structure GetObjectInput where
  Bucket : String
  Key : String
deriving DecidableEq, Repr

/-- The request description `v4.PresignedHTTPRequest` of the AWS SDK. -/
structure PresignedHTTPRequest where
  URL : String
  Method : String
  SignedHeader : List (String × List String)
deriving DecidableEq, Repr

/-- The two values `PresignGetObject` returns: `(*v4.PresignedHTTPRequest, error)`. -/
structure PresignResult where
  req : Option PresignedHTTPRequest
  err : Option GoError
deriving DecidableEq, Repr

/-- The presign client `*s3.PresignClient`, as the one method that is called. -/
structure PresignClient where
  PresignGetObject : GetObjectInput → PresignResult

/-- The struct `queryModel`. -/
structure queryModel where
  ImageKeys : String
deriving DecidableEq, Repr

/-- The call `json.Unmarshal(data, &qm)`: from the payload and the value `qm`
holds before the call, the value it holds after the call and the returned
error. -/
abbrev JSONUnmarshal := List UInt8 → queryModel → queryModel × Option GoError

/-- The numeric type `backend.Status`. -/
abbrev Status := Nat

/-- The constant `backend.StatusBadRequest`. -/
def StatusBadRequest : Status := 400

/-- A `data.Field` holding a `[]string`. -/
structure Field where
  Name : String
  Values : List String
deriving DecidableEq, Repr

/-- A `data.Frame`. -/
structure Frame where
  Name : String
  Fields : List Field
deriving DecidableEq, Repr

/-- The struct `backend.DataResponse`; the zero value is `⟨[], none, 0⟩`. -/
structure DataResponse where
  Frames : List Frame
  Error : Option GoError
  Status : Status
deriving DecidableEq, Repr

/-- The SDK function `backend.ErrDataResponse(status, message)`. -/
def ErrDataResponse (status : Status) (message : String) : DataResponse :=
  { Frames := [], Error := some ⟨message⟩, Status := status }

/-- The fields of `backend.DataQuery` that `QueryData` and `query` read. -/
structure DataQuery where
  RefID : String
  JSON : List UInt8
deriving DecidableEq, Repr

/-- The struct `backend.QueryDataRequest`, its list of queries. -/
structure QueryDataRequest where
  Queries : List DataQuery
deriving DecidableEq, Repr

/-- The Go map `map[string]backend.DataResponse` as a list of entries with no
key twice. -/
abbrev Responses := List (String × DataResponse)

/-- Map assignment `m[k] = v`: the entry of `k` is overwritten when there is
one and added otherwise. -/
def Responses.set : Responses → String → DataResponse → Responses
  | [], k, v => [(k, v)]
  | (k0, v0) :: rest, k, v =>
    if k0 = k then (k, v) :: rest else (k0, v0) :: Responses.set rest k v

/-- Map lookup `m[k]` with its presence flag. -/
def Responses.get? (m : Responses) (k : String) : Option DataResponse :=
  (m.find? (fun e => e.1 = k)).map (fun e => e.2)

/-- The struct `backend.QueryDataResponse`. -/
structure QueryDataResponse where
  Responses : Responses
deriving DecidableEq, Repr

/-- The enumeration `backend.HealthStatus`. -/
inductive HealthStatus where
  | HealthStatusUnknown
  | HealthStatusOk
  | HealthStatusError
deriving DecidableEq, Repr

/-- The struct `backend.CheckHealthResult`. -/
structure CheckHealthResult where
  Status : HealthStatus
  Message : String
deriving DecidableEq, Repr

/-! ## Execution model -/

/-- Run-time errors of the Go code. -/
inductive Panic where
  | nilPointerDereference
deriving DecidableEq, Repr

/-- Outcome of running a piece of the datasource: the presign calls it made,
in order, and either the value it returned or the panic that stopped it. -/
structure Exec (α : Type) where
  calls : List GetObjectInput
  result : Except Panic α

/-! ## The datasource -/

/-- The struct `Datasource`. -/
structure Datasource where
  bucket : String
  presigner : PresignClient

/-- The key extraction of `query`:
`strings.Split(strings.ReplaceAll(qm.ImageKeys, " ", ""), ",")`. -/
def imageKeys (ImageKeys : String) : List String :=
  strings.Split (strings.ReplaceAll ImageKeys " " "") ","

/-- The signing loop of `query`, `for _, key := range imageKeys`, started with
the URLs appended so far. When the presign call reports an error the loop body
logs it and goes on to the same statement as on success,
`signedUrls = append(signedUrls, signedRequest.URL)`, which reads through the
returned pointer. -/
def signLoop (d : Datasource) : List String → List String → Exec (List String)
  | [], signedUrls => ⟨[], .ok signedUrls⟩
  | key :: rest, signedUrls =>
    let input : GetObjectInput := ⟨d.bucket, key⟩
    match (d.presigner.PresignGetObject input).req with
    | none => ⟨[input], .error .nilPointerDereference⟩
    | some signedRequest =>
      let r := signLoop d rest (signedUrls ++ [signedRequest.URL])
      ⟨input :: r.calls, r.result⟩

/-- The method `Datasource.query`. -/
def Datasource.query (Unmarshal : JSONUnmarshal) (d : Datasource) (query : DataQuery) :
    Exec DataResponse :=
  match Unmarshal query.JSON ⟨""⟩ with
  | (_, some err) =>
    ⟨[], .ok (ErrDataResponse StatusBadRequest ("json unmarshal: " ++ err.Error))⟩
  | (qm, none) =>
    let r := signLoop d (imageKeys qm.ImageKeys) []
    match r.result with
    | .error p => ⟨r.calls, .error p⟩
    | .ok signedUrls =>
      ⟨r.calls, .ok { Frames := [⟨"response", [⟨"URL", signedUrls⟩]⟩], Error := none, Status := 0 }⟩

/-- The loop of `QueryData`, `for _, q := range req.Queries`, started with the
responses stored so far. -/
def queryLoop (Unmarshal : JSONUnmarshal) (d : Datasource) :
    List DataQuery → Responses → Exec Responses
  | [], responses => ⟨[], .ok responses⟩
  | q :: rest, responses =>
    let r := d.query Unmarshal q
    match r.result with
    | .error p => ⟨r.calls, .error p⟩
    | .ok res =>
      let r2 := queryLoop Unmarshal d rest (responses.set q.RefID res)
      ⟨r.calls ++ r2.calls, r2.result⟩

/-- The method `Datasource.QueryData`: the response and the returned error. -/
def Datasource.QueryData (Unmarshal : JSONUnmarshal) (d : Datasource) (req : QueryDataRequest) :
    Exec (QueryDataResponse × Option GoError) :=
  let r := queryLoop Unmarshal d req.Queries []
  match r.result with
  | .error p => ⟨r.calls, .error p⟩
  | .ok responses => ⟨r.calls, .ok (⟨responses⟩, none)⟩

/-- The method `Datasource.CheckHealth`: the result and the returned error. -/
def Datasource.CheckHealth (d : Datasource) : Exec (CheckHealthResult × Option GoError) :=
  let input : GetObjectInput := ⟨d.bucket, "some/important/object"⟩
  let out := d.presigner.PresignGetObject input
  match out.err with
  | some err => ⟨[input], .ok (⟨.HealthStatusError, err.Error⟩, some err)⟩
  | none =>
    match out.req with
    | none => ⟨[input], .error .nilPointerDereference⟩
    | some signedRequest =>
      ⟨[input], .ok (⟨.HealthStatusOk, "ready to generate urls like: " ++ signedRequest.URL⟩, none)⟩

/-! ## Reference definitions taken from the specification's wording -/

/-- The string `s` "with all spaces removed". -/
def removeSpaces (s : String) : String :=
  ⟨s.data.filter (fun c => c ≠ ' ')⟩

/-- The UTF-8 bytes of a text, for writing payloads. -/
def bytes (s : String) : List UInt8 :=
  s.toUTF8.data.toList

/-! ## Sample data for the worked cases -/

/-- The payload with the given key list in its field `image_keys`. -/
def payload (keys : String) : List UInt8 :=
  bytes ("\x7b\"image_keys\":\"" ++ keys ++ "\"\x7d")

/-- The behaviour of `json.Unmarshal` into a `queryModel` on the payloads of the
worked cases: three objects that decode (the last one, the empty object, has
no field `image_keys` and leaves the model as it was) and the truncated
object `\x7b`, which is rejected with the decoder's error text. The worked
cases use no other payload; the last branch stands for the truncated one. -/
def sampleUnmarshal : JSONUnmarshal := fun data qm =>
  if data = payload "a,b,c" then (⟨"a,b,c"⟩, none)
  else if data = payload "" then (⟨""⟩, none)
  else if data = bytes "\x7b\x7d" then (qm, none)
  else (qm, some ⟨"unexpected end of JSON input"⟩)

/-- A URL in the shape of a presigned one. -/
def sampleURL (bucket key : String) : String :=
  "https://" ++ bucket ++ ".s3.us-east-1.amazonaws.com/" ++ key ++ "?X-Amz-Signature=0"

/-- A presign client that signs every key. -/
def signingClient : PresignClient :=
  ⟨fun input => ⟨some ⟨sampleURL input.Bucket input.Key, "GET", []⟩, none⟩⟩

/-- A presign client that fails on the key `bad`, returning a nil request and
an error as the AWS SDK does, and signs every other key. -/
def failingClient (bad : String) : PresignClient :=
  ⟨fun input =>
    if input.Key = bad then ⟨none, some ⟨"operation error S3: GetObject"⟩⟩
    else ⟨some ⟨sampleURL input.Bucket input.Key, "GET", []⟩, none⟩⟩

/-! ## Lemmas on the string functions -/

theorem splitFrom_ne_nil (sep : List Char) (k : Nat) (s : List Char) :
    strings.splitFrom sep k s ≠ [] := by
  induction s generalizing k with
  | nil => cases k <;> simp [strings.splitFrom]
  | cons x xs ih =>
    cases k with
    | succ k => simpa [strings.splitFrom] using ih k
    | zero =>
      simp only [strings.splitFrom]
      split
      · simp
      · split <;> simp

theorem splitFrom_single_cons (c x : Char) (xs : List Char) :
    strings.splitFrom [c] 0 (x :: xs) =
      if x = c then [] :: strings.splitFrom [c] 0 xs
      else match strings.splitFrom [c] 0 xs with
        | [] => [[x]]
        | p :: ps => (x :: p) :: ps := by
  by_cases h : x = c
  · subst h; simp [strings.splitFrom, List.isPrefixOf]
  · have h2 : ¬ c = x := fun e => h e.symm
    simp [strings.splitFrom, List.isPrefixOf, h, h2]

theorem replaceFrom_single (c : Char) (s : List Char) :
    strings.replaceFrom [c] [] 0 s = s.filter (fun x => x ≠ c) := by
  induction s with
  | nil => simp [strings.replaceFrom]
  | cons x xs ih =>
    by_cases h : x = c
    · subst h; simp [strings.replaceFrom, List.isPrefixOf, ih]
    · have h2 : ¬ c = x := fun e => h e.symm
      simp [strings.replaceFrom, List.isPrefixOf, h, h2, ih]

theorem ReplaceAll_space_data (s : String) :
    (strings.ReplaceAll s " " "").data = s.data.filter (fun c => c ≠ ' ') := by
  have h1 : ¬ (" " : String) = "" := by decide
  have h2 : ¬ (" " : String).data = [] := by decide
  have h3 : (" " : String).data = [' '] := rfl
  have h4 : ("" : String).data = [] := rfl
  simp only [strings.ReplaceAll, h1, h2, if_false, h3, h4]
  exact replaceFrom_single ' ' s.data

theorem ReplaceAll_space (s : String) : strings.ReplaceAll s " " "" = removeSpaces s := by
  have h := ReplaceAll_space_data s
  cases hs : strings.ReplaceAll s " " "" with
  | mk l => rw [hs] at h; simp at h; simp [removeSpaces, h]

theorem Split_comma (s : String) :
    strings.Split s "," = (strings.splitFrom [','] 0 s.data).map String.mk := by
  have h2 : ¬ ("," : String).data = [] := by decide
  have h3 : ("," : String).data = [','] := rfl
  simp only [strings.Split, h2, if_false, h3]

theorem imageKeys_eq (s : String) :
    imageKeys s = (strings.splitFrom [','] 0 (s.data.filter (fun c => c ≠ ' '))).map String.mk := by
  rw [imageKeys, ReplaceAll_space, Split_comma]; rfl

theorem splitFrom_single_length (c : Char) (s : List Char) :
    (strings.splitFrom [c] 0 s).length = s.count c + 1 := by
  induction s with
  | nil => simp [strings.splitFrom]
  | cons x xs ih =>
    rw [splitFrom_single_cons]
    by_cases h : x = c
    · subst h; simp [ih]
    · have hne := splitFrom_ne_nil [c] 0 xs
      simp only [h, if_false]
      cases hs : strings.splitFrom [c] 0 xs with
      | nil => exact absurd hs hne
      | cons p ps =>
        rw [hs] at ih
        simp [List.count_cons, h] at ih ⊢
        omega

theorem splitFrom_single_mem (c : Char) (s : List Char) :
    ∀ p ∈ strings.splitFrom [c] 0 s, c ∉ p ∧ ∀ x ∈ p, x ∈ s := by
  induction s with
  | nil => simp [strings.splitFrom]
  | cons x xs ih =>
    rw [splitFrom_single_cons]
    by_cases h : x = c
    · subst h
      simp only [if_true]
      intro p hp
      rcases List.mem_cons.1 hp with rfl | hp
      · simp
      · exact ⟨(ih p hp).1, fun y hy => List.mem_cons_of_mem _ ((ih p hp).2 y hy)⟩
    · simp only [h, if_false]
      cases hs : strings.splitFrom [c] 0 xs with
      | nil => simp; exact fun e => h e.symm
      | cons q qs =>
        rw [hs] at ih
        intro p hp
        rcases List.mem_cons.1 hp with rfl | hp
        · have hq := ih q (List.mem_cons_self _ _)
          refine ⟨?_, ?_⟩
          · simp only [List.mem_cons, not_or]
            exact ⟨fun e => h e.symm, hq.1⟩
          · intro y hy
            rcases List.mem_cons.1 hy with rfl | hy
            · exact List.mem_cons_self _ _
            · exact List.mem_cons_of_mem _ (hq.2 y hy)
        · have hq := ih p (List.mem_cons_of_mem _ hp)
          exact ⟨hq.1, fun y hy => List.mem_cons_of_mem _ (hq.2 y hy)⟩


theorem Join_cons_mk (x : Char) (p : List Char) (ps : List String) (sep : String) :
    strings.Join (⟨x :: p⟩ :: ps) sep = ⟨[x]⟩ ++ strings.Join (⟨p⟩ :: ps) sep := by
  cases ps with
  | nil => rfl
  | cons e es =>
    simp only [strings.Join]
    rw [← String.append_assoc, ← String.append_assoc]
    rfl

theorem Join_splitFrom_single (c : Char) (s : List Char) :
    strings.Join ((strings.splitFrom [c] 0 s).map String.mk) ⟨[c]⟩ = ⟨s⟩ := by
  induction s with
  | nil => rfl
  | cons x xs ih =>
    have hne := splitFrom_ne_nil [c] 0 xs
    rw [splitFrom_single_cons]
    cases hs : strings.splitFrom [c] 0 xs with
    | nil => exact absurd hs hne
    | cons q qs =>
      rw [hs] at ih
      by_cases h : x = c
      · subst h
        simp only [if_true, List.map_cons, strings.Join] at ih ⊢
        rw [ih]; rfl
      · simp only [h, if_false, List.map_cons] at ih ⊢
        rw [Join_cons_mk, ih]; rfl


theorem splitFrom_single_cover (c : Char) (s : List Char) :
    ∀ x ∈ s, x ≠ c → ∃ p ∈ strings.splitFrom [c] 0 s, x ∈ p := by
  induction s with
  | nil => simp
  | cons y ys ih =>
    have hne := splitFrom_ne_nil [c] 0 ys
    intro x hx hxc
    rw [splitFrom_single_cons]
    cases hs : strings.splitFrom [c] 0 ys with
    | nil => exact absurd hs hne
    | cons q qs =>
      rw [hs] at ih
      by_cases h : y = c
      · subst h
        simp only [if_true]
        rcases List.mem_cons.1 hx with rfl | hx
        · exact absurd rfl hxc
        · obtain ⟨p, hp, hxp⟩ := ih x hx hxc
          exact ⟨p, List.mem_cons_of_mem _ hp, hxp⟩
      · simp only [h, if_false]
        rcases List.mem_cons.1 hx with rfl | hx
        · exact ⟨x :: q, List.mem_cons_self _ _, List.mem_cons_self _ _⟩
        · obtain ⟨p, hp, hxp⟩ := ih x hx hxc
          rcases List.mem_cons.1 hp with rfl | hp
          · exact ⟨y :: p, List.mem_cons_self _ _, List.mem_cons_of_mem _ hxp⟩
          · exact ⟨p, List.mem_cons_of_mem _ hp, hxp⟩

/-! ## Lemmas on the signing loop -/

theorem signLoop_of_signed (d : Datasource) (url : String → String) (keys signedUrls : List String)
    (h : ∀ key ∈ keys, ∃ r,
      d.presigner.PresignGetObject ⟨d.bucket, key⟩ = ⟨some r, none⟩ ∧ r.URL = url key) :
    signLoop d keys signedUrls =
      ⟨keys.map (fun key => ⟨d.bucket, key⟩), .ok (signedUrls ++ keys.map url)⟩ := by
  induction keys generalizing signedUrls with
  | nil => simp [signLoop]
  | cons key rest ih =>
    obtain ⟨r, hr, hu⟩ := h key (List.mem_cons_self _ _)
    have hrest := ih (signedUrls ++ [r.URL]) (fun k hk => h k (List.mem_cons_of_mem _ hk))
    rw [hu] at hrest
    simp [signLoop, hr, hu, hrest]

theorem signLoop_calls (d : Datasource) (keys signedUrls : List String) :
    ∀ c ∈ (signLoop d keys signedUrls).calls, c.Bucket = d.bucket ∧ c.Key ∈ keys := by
  induction keys generalizing signedUrls with
  | nil => simp [signLoop]
  | cons key rest ih =>
    intro c hc
    simp only [signLoop] at hc
    split at hc
    · simp at hc; subst hc; simp
    · rcases List.mem_cons.1 hc with rfl | hc
      · simp
      · have := ih _ c hc
        exact ⟨this.1, List.mem_cons_of_mem _ this.2⟩

theorem signLoop_returns (d : Datasource) (keys signedUrls urls : List String)
    (h : (signLoop d keys signedUrls).result = .ok urls) :
    urls.length = signedUrls.length + keys.length ∧
    (signLoop d keys signedUrls).calls = keys.map (fun key => ⟨d.bucket, key⟩) ∧
    ∀ key ∈ keys, (d.presigner.PresignGetObject ⟨d.bucket, key⟩).req ≠ none := by
  induction keys generalizing signedUrls with
  | nil =>
    simp [signLoop] at h
    subst h; simp [signLoop]
  | cons key rest ih =>
    simp only [signLoop] at h ⊢
    split at h
    · simp at h
    · rename_i r hr
      obtain ⟨h1, h2, h3⟩ := ih _ h
      refine ⟨?_, ?_, ?_⟩
      · simp at h1 ⊢; omega
      · simp [hr, h2]
      · intro k hk
        rcases List.mem_cons.1 hk with rfl | hk
        · simp [hr]
        · exact h3 k hk

theorem signLoop_panics (d : Datasource) (keys signedUrls : List String) (key : String)
    (hk : key ∈ keys) (hnil : (d.presigner.PresignGetObject ⟨d.bucket, key⟩).req = none) :
    (signLoop d keys signedUrls).result = .error .nilPointerDereference := by
  cases h : (signLoop d keys signedUrls).result with
  | error p => cases p; rfl
  | ok urls => exact absurd hnil ((signLoop_returns d keys signedUrls urls h).2.2 key hk)

/-! ## Lemmas on the response map and the query loop -/

theorem Responses.get?_set_self (m : Responses) (k : String) (v : DataResponse) :
    (m.set k v).get? k = some v := by
  induction m with
  | nil => simp [Responses.set, Responses.get?]
  | cons e rest ih =>
    obtain ⟨k0, v0⟩ := e
    by_cases h : k0 = k
    · simp [Responses.set, Responses.get?, h]
    · simp only [Responses.set, h, if_false]
      simpa [Responses.get?, h] using ih

theorem Responses.get?_set_ne (m : Responses) (k k1 : String) (v : DataResponse) (h : k1 ≠ k) :
    (m.set k v).get? k1 = m.get? k1 := by
  induction m with
  | nil =>
    have h2 : ¬ k = k1 := fun e => h e.symm
    simp [Responses.set, Responses.get?, h2]
  | cons e rest ih =>
    obtain ⟨k0, v0⟩ := e
    by_cases h0 : k0 = k
    · subst h0
      have h2 : ¬ k0 = k1 := fun e => h e.symm
      simp [Responses.set, Responses.get?, h2]
    · simp only [Responses.set, h0, if_false]
      by_cases h1 : k0 = k1
      · simp [Responses.get?, h1]
      · simpa [Responses.get?, h1] using ih

theorem Responses.length_set (m : Responses) (k : String) (v : DataResponse)
    (h : m.get? k = none) : (m.set k v).length = m.length + 1 := by
  induction m with
  | nil => simp [Responses.set]
  | cons e rest ih =>
    obtain ⟨k0, v0⟩ := e
    by_cases h0 : k0 = k
    · simp [Responses.get?, h0] at h
    · simp only [Responses.set, h0, if_false, List.length_cons]
      have h1 : Responses.get? rest k = none := by simpa [Responses.get?, h0] using h
      rw [ih h1]

theorem queryLoop_of_returns (Unmarshal : JSONUnmarshal) (d : Datasource)
    (res : DataQuery → DataResponse) (qs : List DataQuery) (m0 : Responses)
    (hres : ∀ q ∈ qs, (d.query Unmarshal q).result = .ok (res q))
    (hid : (qs.map (fun q => q.RefID)).Nodup)
    (hnew : ∀ q ∈ qs, m0.get? q.RefID = none) :
    ∃ m, (queryLoop Unmarshal d qs m0).result = .ok m ∧
      (∀ q ∈ qs, m.get? q.RefID = some (res q)) ∧
      (∀ id, id ∉ qs.map (fun q => q.RefID) → m.get? id = m0.get? id) ∧
      m.length = m0.length + qs.length ∧
      (queryLoop Unmarshal d qs m0).calls = (qs.map (fun q => (d.query Unmarshal q).calls)).flatten := by
  induction qs generalizing m0 with
  | nil => exact ⟨m0, by simp [queryLoop]⟩
  | cons q rest ih =>
    have hq := hres q (List.mem_cons_self _ _)
    rw [List.map_cons, List.nodup_cons] at hid
    have hnew1 : ∀ q1 ∈ rest, (m0.set q.RefID (res q)).get? q1.RefID = none := by
      intro q1 h1
      have hne : q1.RefID ≠ q.RefID := by
        intro e
        exact hid.1 (e ▸ List.mem_map_of_mem (fun q => q.RefID) h1)
      rw [Responses.get?_set_ne _ _ _ _ hne]
      exact hnew q1 (List.mem_cons_of_mem _ h1)
    obtain ⟨m, h1, h2, h3, h4, h5⟩ :=
      ih (m0.set q.RefID (res q)) (fun q1 h1 => hres q1 (List.mem_cons_of_mem _ h1)) hid.2 hnew1
    refine ⟨m, ?_, ?_, ?_, ?_, ?_⟩
    · simp only [queryLoop, hq]; exact h1
    · intro q1 hq1
      rcases List.mem_cons.1 hq1 with rfl | hq1
      · rw [h3 _ hid.1, Responses.get?_set_self]
      · exact h2 q1 hq1
    · intro id hidn
      rw [List.map_cons, List.mem_cons, not_or] at hidn
      rw [h3 id hidn.2, Responses.get?_set_ne _ _ _ _ hidn.1]
    · rw [h4, Responses.length_set _ _ _ (hnew q (List.mem_cons_self _ _))]
      simp; omega
    · simp only [queryLoop, hq, h5]; simp

theorem queryLoop_panics (Unmarshal : JSONUnmarshal) (d : Datasource) (qs : List DataQuery)
    (m0 : Responses) (q : DataQuery) (p : Panic) (hq : q ∈ qs)
    (hp : (d.query Unmarshal q).result = .error p) :
    ∃ p1, (queryLoop Unmarshal d qs m0).result = .error p1 := by
  induction qs generalizing m0 with
  | nil => simp at hq
  | cons q0 rest ih =>
    simp only [queryLoop]
    cases h0 : (d.query Unmarshal q0).result with
    | error p0 => exact ⟨p0, rfl⟩
    | ok r0 =>
      rcases List.mem_cons.1 hq with rfl | hq
      · rw [hp] at h0; cases h0
      · exact ih _ hq

theorem QueryData_of_returns (Unmarshal : JSONUnmarshal) (d : Datasource)
    (req : QueryDataRequest) (res : DataQuery → DataResponse)
    (hres : ∀ q ∈ req.Queries, (d.query Unmarshal q).result = .ok (res q))
    (hid : (req.Queries.map (fun q => q.RefID)).Nodup) :
    ∃ m : Responses, (d.QueryData Unmarshal req).result = .ok (⟨m⟩, none) ∧
      (∀ q ∈ req.Queries, m.get? q.RefID = some (res q)) ∧
      (∀ id, id ∉ req.Queries.map (fun q => q.RefID) → m.get? id = none) ∧
      m.length = req.Queries.length := by
  obtain ⟨m, h1, h2, h3, h4, _⟩ :=
    queryLoop_of_returns Unmarshal d res req.Queries [] hres hid (fun _ _ => rfl)
  refine ⟨m, ?_, h2, ?_, ?_⟩
  · simp only [Datasource.QueryData, h1]
  · intro id hn
    rw [h3 id hn]; rfl
  · simpa using h4

theorem QueryData_panics (Unmarshal : JSONUnmarshal) (d : Datasource) (req : QueryDataRequest)
    (q : DataQuery) (p : Panic) (hq : q ∈ req.Queries)
    (hp : (d.query Unmarshal q).result = .error p) :
    (d.QueryData Unmarshal req).result = .error .nilPointerDereference := by
  obtain ⟨p1, h1⟩ := queryLoop_panics Unmarshal d req.Queries [] q p hq hp
  cases p1
  simp only [Datasource.QueryData, h1]

theorem query_panics (Unmarshal : JSONUnmarshal) (d : Datasource) (q : DataQuery)
    (qm : queryModel) (key : String) (hparse : Unmarshal q.JSON ⟨""⟩ = (qm, none))
    (hk : key ∈ imageKeys qm.ImageKeys)
    (hnil : (d.presigner.PresignGetObject ⟨d.bucket, key⟩).req = none) :
    (d.query Unmarshal q).result = .error .nilPointerDereference := by
  have h := signLoop_panics d (imageKeys qm.ImageKeys) [] key hk hnil
  simp only [Datasource.query, hparse, h]

/-! ## The claims -/

/-- C1. Order preservation: when the payload parses and every presign call
succeeds, `query` returns the table whose `URL` column is the key list mapped
through the presign client, in input order: it has as many entries as there
are keys, its i-th entry is the URL returned for the i-th key, and the client
was called once per key with the configured bucket. -/
theorem query_order_preservation (Unmarshal : JSONUnmarshal) (d : Datasource) (q : DataQuery)
    (qm : queryModel) (url : String → String)
    (hparse : Unmarshal q.JSON ⟨""⟩ = (qm, none))
    (hsign : ∀ key ∈ imageKeys qm.ImageKeys, ∃ r,
      d.presigner.PresignGetObject ⟨d.bucket, key⟩ = ⟨some r, none⟩ ∧ r.URL = url key) :
    (d.query Unmarshal q).result =
        .ok ⟨[⟨"response", [⟨"URL", (imageKeys qm.ImageKeys).map url⟩]⟩], none, 0⟩ ∧
      ((imageKeys qm.ImageKeys).map url).length = (imageKeys qm.ImageKeys).length ∧
      (∀ i : Nat, ((imageKeys qm.ImageKeys).map url)[i]? = ((imageKeys qm.ImageKeys)[i]?).map url) ∧
      (d.query Unmarshal q).calls = (imageKeys qm.ImageKeys).map (fun key => ⟨d.bucket, key⟩) := by
  have h := signLoop_of_signed d url (imageKeys qm.ImageKeys) [] hsign
  refine ⟨?_, ?_, ?_, ?_⟩
  · simp [Datasource.query, hparse, h]
  · simp
  · intro i; simp
  · simp [Datasource.query, hparse, h]

/-- Worked case of C1: the keys `a,b,c` with a client that signs every key. -/
theorem query_order_preservation_witness :
    sampleUnmarshal (payload "a,b,c") ⟨""⟩ = (⟨"a,b,c"⟩, none) ∧
    ((⟨"test", signingClient⟩ : Datasource).query sampleUnmarshal ⟨"A", payload "a,b,c"⟩).result =
      .ok ⟨[⟨"response", [⟨"URL", (imageKeys "a,b,c").map (sampleURL "test")⟩]⟩], none, 0⟩ :=
  ⟨by decide,
   (query_order_preservation sampleUnmarshal ⟨"test", signingClient⟩ ⟨"A", payload "a,b,c"⟩
      ⟨"a,b,c"⟩ (sampleURL "test") (by decide) (fun _ _ => ⟨_, rfl, rfl⟩)).1⟩

/-- C4. Bad request: when the payload does not parse, `query` returns the error
response with status `StatusBadRequest`, the message `json unmarshal: `
followed by the parse error text and no frame, and makes no presign call. -/
theorem query_bad_request (Unmarshal : JSONUnmarshal) (d : Datasource) (q : DataQuery)
    (qm : queryModel) (err : GoError)
    (hparse : Unmarshal q.JSON ⟨""⟩ = (qm, some err)) :
    (d.query Unmarshal q).result =
        .ok ⟨[], some ⟨"json unmarshal: " ++ err.Error⟩, StatusBadRequest⟩ ∧
      (d.query Unmarshal q).calls = [] := by
  simp [Datasource.query, hparse, ErrDataResponse]

/-- Worked case of C4: the truncated object `\x7b`. -/
theorem query_bad_request_witness :
    sampleUnmarshal (bytes "\x7b") ⟨""⟩ = (⟨""⟩, some ⟨"unexpected end of JSON input"⟩) ∧
    ((⟨"test", signingClient⟩ : Datasource).query sampleUnmarshal ⟨"A", bytes "\x7b"⟩).result =
        .ok ⟨[], some ⟨"json unmarshal: unexpected end of JSON input"⟩, 400⟩ ∧
    ((⟨"test", signingClient⟩ : Datasource).query sampleUnmarshal ⟨"A", bytes "\x7b"⟩).calls = [] :=
  ⟨by decide,
   query_bad_request sampleUnmarshal ⟨"test", signingClient⟩ ⟨"A", bytes "\x7b"⟩ ⟨""⟩
     ⟨"unexpected end of JSON input"⟩ (by decide)⟩


/-- C2. Partial signing failure, on the keys `a,b,c` where only `b` fails: the
claim says `query` returns a table with the two URLs of `a` and `c`. The code
logs the failure of `b` and then reads `signedRequest.URL` through the nil
pointer: after the calls for `a` and `b` it panics, `c` is never presigned and
no table is returned. In general a table returned by `query` has one entry
per key, so that no key is ever left out of the column. -/
theorem query_partial_failure_panics :
    ((⟨"test", failingClient "b"⟩ : Datasource).query sampleUnmarshal
        ⟨"A", payload "a,b,c"⟩).result = .error .nilPointerDereference ∧
    ((⟨"test", failingClient "b"⟩ : Datasource).query sampleUnmarshal
        ⟨"A", payload "a,b,c"⟩).calls = [⟨"test", "a"⟩, ⟨"test", "b"⟩] ∧
    (∀ (Unmarshal : JSONUnmarshal) (d : Datasource) (q : DataQuery) (qm : queryModel)
        (resp : DataResponse),
      Unmarshal q.JSON ⟨""⟩ = (qm, none) → (d.query Unmarshal q).result = .ok resp →
      ∃ urls, resp = ⟨[⟨"response", [⟨"URL", urls⟩]⟩], none, 0⟩ ∧
        urls.length = (imageKeys qm.ImageKeys).length ∧
        ∀ key ∈ imageKeys qm.ImageKeys,
          (d.presigner.PresignGetObject ⟨d.bucket, key⟩).req ≠ none) := by
  refine ⟨rfl, by decide, ?_⟩
  intro Unmarshal d q qm resp hparse hres
  simp only [Datasource.query, hparse] at hres
  cases hloop : (signLoop d (imageKeys qm.ImageKeys) []).result with
  | error p => simp [hloop] at hres
  | ok urls =>
    simp only [hloop, Except.ok.injEq] at hres
    have h := signLoop_returns d (imageKeys qm.ImageKeys) [] urls hloop
    exact ⟨urls, hres.symm, by simpa using h.1, h.2.2⟩

/-- C3. Isolation of signing failures across a batch, on the batch of request
`A` with the keys `a,b,c` where `b` fails and request `B` with the empty key
list: the claim says `QueryData` completes and `B` gets the result it gets
alone. Alone `B` gets a table; in the batch the panic of `A` ends `QueryData`,
which returns no response at all, and the key of `B` is never presigned. -/
theorem QueryData_signing_failure_aborts :
    ((⟨"test", failingClient "b"⟩ : Datasource).query sampleUnmarshal ⟨"B", payload ""⟩).result =
      .ok ⟨[⟨"response", [⟨"URL", [sampleURL "test" ""]⟩]⟩], none, 0⟩ ∧
    ((⟨"test", failingClient "b"⟩ : Datasource).QueryData sampleUnmarshal
        ⟨[⟨"A", payload "a,b,c"⟩, ⟨"B", payload ""⟩]⟩).result = .error .nilPointerDereference ∧
    ((⟨"test", failingClient "b"⟩ : Datasource).QueryData sampleUnmarshal
        ⟨[⟨"A", payload "a,b,c"⟩, ⟨"B", payload ""⟩]⟩).calls = [⟨"test", "a"⟩, ⟨"test", "b"⟩] ∧
    (∀ (Unmarshal : JSONUnmarshal) (d : Datasource) (req : QueryDataRequest) (q : DataQuery)
        (qm : queryModel) (key : String),
      q ∈ req.Queries → Unmarshal q.JSON ⟨""⟩ = (qm, none) → key ∈ imageKeys qm.ImageKeys →
      (d.presigner.PresignGetObject ⟨d.bucket, key⟩).req = none →
      (d.QueryData Unmarshal req).result = .error .nilPointerDereference) :=
  ⟨rfl, rfl, by decide, fun Unmarshal d req q qm key hq hparse hk hnil =>
    QueryData_panics Unmarshal d req q _ hq (query_panics Unmarshal d q qm key hparse hk hnil)⟩

/-- C5. Batch result map, on the batch of the one request `A` with the keys
`a,b,c` where `b` fails: the claim says `QueryData` returns a nil error and a
map with the key `A`. The panic of `query` ends `QueryData` and nothing is
returned. With a client that signs every key the batch of a malformed request
`A` and a well-formed request `B` returns a nil error and the map of `A` to
its bad-request response and of `B` to its table; in general, when the
request ids are pairwise distinct and `query` returns for every request, the
map holds the result of each request under its id and nothing else. -/
theorem QueryData_batch_panics :
    ((⟨"test", failingClient "b"⟩ : Datasource).QueryData sampleUnmarshal
        ⟨[⟨"A", payload "a,b,c"⟩]⟩).result = .error .nilPointerDereference ∧
    ((⟨"test", signingClient⟩ : Datasource).QueryData sampleUnmarshal
        ⟨[⟨"A", bytes "\x7b"⟩, ⟨"B", payload "a,b,c"⟩]⟩).result =
      .ok (⟨[("A", ⟨[], some ⟨"json unmarshal: unexpected end of JSON input"⟩, 400⟩),
             ("B", ⟨[⟨"response", [⟨"URL", [sampleURL "test" "a", sampleURL "test" "b",
                      sampleURL "test" "c"]⟩]⟩], none, 0⟩)]⟩, none) ∧
    (∀ (Unmarshal : JSONUnmarshal) (d : Datasource) (req : QueryDataRequest)
        (res : DataQuery → DataResponse),
      (∀ q ∈ req.Queries, (d.query Unmarshal q).result = .ok (res q)) →
      (req.Queries.map (fun q => q.RefID)).Nodup →
      ∃ m : Responses, (d.QueryData Unmarshal req).result = .ok (⟨m⟩, none) ∧
        (∀ q ∈ req.Queries, m.get? q.RefID = some (res q)) ∧
        (∀ id, id ∉ req.Queries.map (fun q => q.RefID) → m.get? id = none) ∧
        m.length = req.Queries.length) :=
  ⟨rfl, rfl, QueryData_of_returns⟩

/-- C9. Empty key list, on the payloads whose `image_keys` is the empty string
or is absent, with a client that fails on the empty key: the split yields the
one key `""` and the client is called once, with the configured bucket and
that key, as the claim says; the claim also says `query` does not crash
whatever that call returns, and the code panics on the nil request. With a
client that signs the empty key the result is the table of that one URL. The
same holds for every payload that parses to an empty `image_keys`. -/
theorem query_empty_keys_panics :
    imageKeys "" = [""] ∧
    sampleUnmarshal (payload "") ⟨""⟩ = (⟨""⟩, none) ∧
    sampleUnmarshal (bytes "\x7b\x7d") ⟨""⟩ = (⟨""⟩, none) ∧
    ((⟨"test", failingClient ""⟩ : Datasource).query sampleUnmarshal ⟨"A", payload ""⟩).result =
      .error .nilPointerDereference ∧
    ((⟨"test", failingClient ""⟩ : Datasource).query sampleUnmarshal ⟨"A", payload ""⟩).calls =
      [⟨"test", ""⟩] ∧
    ((⟨"test", failingClient ""⟩ : Datasource).query sampleUnmarshal
        ⟨"A", bytes "\x7b\x7d"⟩).result = .error .nilPointerDereference ∧
    ((⟨"test", signingClient⟩ : Datasource).query sampleUnmarshal ⟨"A", payload ""⟩).result =
      .ok ⟨[⟨"response", [⟨"URL", [sampleURL "test" ""]⟩]⟩], none, 0⟩ ∧
    (∀ (Unmarshal : JSONUnmarshal) (d : Datasource) (q : DataQuery) (qm : queryModel),
      Unmarshal q.JSON ⟨""⟩ = (qm, none) → qm.ImageKeys = "" →
      (d.query Unmarshal q).calls = [⟨d.bucket, ""⟩] ∧
      ((d.presigner.PresignGetObject ⟨d.bucket, ""⟩).req = none →
        (d.query Unmarshal q).result = .error .nilPointerDereference) ∧
      (∀ r, (d.presigner.PresignGetObject ⟨d.bucket, ""⟩).req = some r →
        (d.query Unmarshal q).result = .ok ⟨[⟨"response", [⟨"URL", [r.URL]⟩]⟩], none, 0⟩)) := by
  refine ⟨by decide, by decide, by decide, rfl, by decide, rfl, rfl, ?_⟩
  intro Unmarshal d q qm hparse hempty
  have hkeys : imageKeys qm.ImageKeys = [""] := by rw [hempty]; decide
  refine ⟨?_, ?_, ?_⟩
  · cases hreq : (d.presigner.PresignGetObject ⟨d.bucket, ""⟩).req <;>
      simp only [Datasource.query, hparse, hkeys, signLoop, hreq]
  · intro hnil
    simp only [Datasource.query, hparse, hkeys, signLoop, hnil]
  · intro r hr
    simp only [Datasource.query, hparse, hkeys, signLoop, hr, List.nil_append]


/-- C6. Whitespace tolerance: the keys extracted from a key-list string are the
keys extracted from that string with all spaces removed; `a, b,c` and `a,b,c`
both give the three keys `a`, `b`, `c`, and the key list of `TestQueryData`
gives its two object keys. -/
theorem imageKeys_space_insensitive :
    (∀ s : String, imageKeys s = imageKeys (removeSpaces s)) ∧
    imageKeys "a, b,c" = ["a", "b", "c"] ∧
    imageKeys "a,b,c" = ["a", "b", "c"] ∧
    imageKeys ("33884862/packs/c0de1446-0000-feed-f00d-5a1ad2c0ffee/zone1_20230223-175257_DEF.png, " ++
        "33884862/packs/c0de1446-0000-feed-f00d-5a1ad2c0ffee/zone2_20230223-175348_DEF.png") =
      ["33884862/packs/c0de1446-0000-feed-f00d-5a1ad2c0ffee/zone1_20230223-175257_DEF.png",
       "33884862/packs/c0de1446-0000-feed-f00d-5a1ad2c0ffee/zone2_20230223-175348_DEF.png"] := by
  refine ⟨?_, by decide, by decide, by decide⟩
  intro s
  rw [imageKeys_eq, imageKeys_eq]
  simp [removeSpaces, List.filter_filter]

/-- C7, as stated, fails: a tab or a newline is not stripped. The key list
`a,<tab>b` gives the keys `a` and `<tab>b`, not `a` and `b`, and likewise
with a newline, so that a key with a whitespace character is extracted. -/
theorem imageKeys_keeps_tab :
    imageKeys "a,\tb" = ["a", "\tb"] ∧ imageKeys "a,\tb" ≠ ["a", "b"] ∧
    imageKeys "a,\nb" = ["a", "\nb"] ∧ imageKeys "a,\nb" ≠ ["a", "b"] ∧
    ¬ (∀ s : String, ∀ k ∈ imageKeys s, ∀ c ∈ k.data, c.isWhitespace = false) := by
  refine ⟨by decide, by decide, by decide, by decide, ?_⟩
  intro h
  exact absurd (h "a,\tb" "\tb" (by decide) '\t' (by decide)) (by decide)

/-- C7, amended. Only the space character is stripped before splitting: no
extracted key, and no key handed to the presign client by `query`, contains a
space; every other character of the key list except the separating comma, a
tab or a newline included, is kept in some key. -/
theorem imageKeys_strips_spaces_only :
    (∀ s : String, ∀ k ∈ imageKeys s, ' ' ∉ k.data) ∧
    (∀ (Unmarshal : JSONUnmarshal) (d : Datasource) (q : DataQuery),
      ∀ call ∈ (d.query Unmarshal q).calls, ' ' ∉ call.Key.data) ∧
    (∀ (s : String) (c : Char), c ∈ s.data → c ≠ ' ' → c ≠ ',' →
      ∃ k ∈ imageKeys s, c ∈ k.data) ∧
    imageKeys "a,\tb" = ["a", "\tb"] ∧ imageKeys "a,\nb" = ["a", "\nb"] := by
  have hkeys : ∀ s : String, ∀ k ∈ imageKeys s, ' ' ∉ k.data := by
    intro s k hk
    rw [imageKeys_eq, List.mem_map] at hk
    obtain ⟨p, hp, rfl⟩ := hk
    intro hmem
    have := (splitFrom_single_mem ',' _ p hp).2 ' ' hmem
    simp at this
  refine ⟨hkeys, ?_, ?_, by decide, by decide⟩
  · intro Unmarshal d q call hcall
    simp only [Datasource.query] at hcall
    split at hcall
    · simp at hcall
    · rename_i qm _
      have hsub : call ∈ (signLoop d (imageKeys qm.ImageKeys) []).calls := by
        revert hcall
        cases (signLoop d (imageKeys qm.ImageKeys) []).result <;> exact id
      exact hkeys _ _ (signLoop_calls d _ _ call hsub).2
  · intro s c hc hsp hcomma
    have hmem : c ∈ s.data.filter (fun c => c ≠ ' ') := by simp [hc, hsp]
    obtain ⟨p, hp, hcp⟩ := splitFrom_single_cover ',' _ c hmem hcomma
    exact ⟨⟨p⟩, by rw [imageKeys_eq]; exact List.mem_map_of_mem _ hp, hcp⟩

/-- Worked case of C7 amended: the key list `a b,<tab>c`. -/
theorem imageKeys_strips_spaces_only_witness :
    ' ' ∉ ("ab" : String).data ∧ ∃ k ∈ imageKeys "a b,\tc", '\t' ∈ k.data :=
  ⟨imageKeys_strips_spaces_only.1 "a b,\tc" "ab" (by decide),
   imageKeys_strips_spaces_only.2.2.1 "a b,\tc" '\t' (by decide) (by decide) (by decide)⟩

/-- C8. Health probe: `CheckHealth` makes one presign call, for the key
`some/important/object` in the configured bucket. When that call fails the
result has status error, its message is the error text and the same error is
returned; when it succeeds the result has status ok, the message is
`ready to generate urls like: ` followed by the URL, and the returned error
is nil. A returned error is non-nil exactly when the presign call failed. -/
theorem CheckHealth_probe (d : Datasource) :
    (d.CheckHealth).calls = [⟨d.bucket, "some/important/object"⟩] ∧
    (∀ err, (d.presigner.PresignGetObject ⟨d.bucket, "some/important/object"⟩).err = some err →
      (d.CheckHealth).result = .ok (⟨.HealthStatusError, err.Error⟩, some err)) ∧
    (∀ r, d.presigner.PresignGetObject ⟨d.bucket, "some/important/object"⟩ = ⟨some r, none⟩ →
      (d.CheckHealth).result =
        .ok (⟨.HealthStatusOk, "ready to generate urls like: " ++ r.URL⟩, none)) ∧
    (∀ res e, (d.CheckHealth).result = .ok (res, e) →
      (e ≠ none ↔ (d.presigner.PresignGetObject ⟨d.bucket, "some/important/object"⟩).err ≠ none)) := by
  refine ⟨?_, ?_, ?_, ?_⟩
  · simp only [Datasource.CheckHealth]
    split
    · rfl
    · split <;> rfl
  · intro err h
    simp [Datasource.CheckHealth, h]
  · intro r h
    simp [Datasource.CheckHealth, h]
  · intro res e h
    simp only [Datasource.CheckHealth] at h
    split at h
    · rename_i err herr
      simp at h
      simp [herr, ← h.2]
    · rename_i herr
      split at h
      · simp at h
      · simp at h
        simp [herr, ← h.2]

/-- Worked cases of C8: a client that signs the canary key and one that fails on it. -/
theorem CheckHealth_probe_witness :
    ((⟨"test", signingClient⟩ : Datasource).CheckHealth).result =
      .ok (⟨.HealthStatusOk, "ready to generate urls like: " ++
        sampleURL "test" "some/important/object"⟩, none) ∧
    ((⟨"test", failingClient "some/important/object"⟩ : Datasource).CheckHealth).result =
      .ok (⟨.HealthStatusError, "operation error S3: GetObject"⟩,
        some ⟨"operation error S3: GetObject"⟩) :=
  ⟨(CheckHealth_probe ⟨"test", signingClient⟩).2.2.1 _ rfl,
   (CheckHealth_probe ⟨"test", failingClient "some/important/object"⟩).2.1 _ (by decide)⟩

/-- C10. Split and join round trip: for every key-list string the extracted key
list is not empty, has one key more than the string has commas, and joined
with `,` gives the string with every space removed; no key contains a space
or a comma; a space inside a key is deleted too: `my file.png` gives the key
`myfile.png`. -/
theorem imageKeys_split_join :
    (∀ s : String,
      imageKeys s ≠ [] ∧
      (imageKeys s).length = s.data.count ',' + 1 ∧
      strings.Join (imageKeys s) "," = removeSpaces s ∧
      ∀ k ∈ imageKeys s, ' ' ∉ k.data ∧ ',' ∉ k.data) ∧
    imageKeys "my file.png" = ["myfile.png"] := by
  refine ⟨?_, by decide⟩
  intro s
  refine ⟨?_, ?_, ?_, ?_⟩
  · rw [imageKeys_eq]
    simpa using splitFrom_ne_nil [','] 0 _
  · rw [imageKeys_eq, List.length_map, splitFrom_single_length]
    rw [List.count_filter (by decide)]
  · rw [imageKeys_eq]
    exact Join_splitFrom_single ',' _
  · intro k hk
    rw [imageKeys_eq, List.mem_map] at hk
    obtain ⟨p, hp, rfl⟩ := hk
    have h := splitFrom_single_mem ',' _ p hp
    refine ⟨?_, h.1⟩
    intro hmem
    have := h.2 ' ' hmem
    simp at this

end plugin
